import Mathlib

/-!
Shallow embedding of the pattern-resolution core of the cloakui-grid
library (sources: `src/helpers.ts` and the unnamed helper module), together
with theorems settling the behavioural claims about it.

Modelling conventions:
* JS numbers that hold span data are modelled as `Int` (they can be `-1`);
  item indices and counts are `Nat`.
* A JS value stored in a breakpoint object is modelled by `Val`
  (a number or a string); an absent key is `Option.none`.  Keys explicitly
  set to `undefined` (a JS quirk the library never relies on) are
  identified with absent keys.
* Span values are modelled by the inductive `SpanValue`, whose three
  constructors correspond exactly to the three shapes the source
  distinguishes with `typeof span === "number"` / `span.includes("/")`:
  a number, a numeric string without a slash, and an explicit
  `"start/end"` string (kept as its two parsed integers).
-/

/-- A JS value held in a breakpoint object: a number or a string. -/
inductive Val where
  | num (n : Int)
  | str (s : String)
deriving DecidableEq, Repr

/-- The six breakpoint tiers, smallest to largest (`breakpoints` array in
`src/helpers.ts`). -/
inductive Bp where
  | mobile
  | tablet
  | tabletWide
  | laptop
  | desktop
  | desktopWide
deriving DecidableEq, Repr

/-- The ordered `breakpoints` list from the source. -/
def bps : List Bp :=
  [Bp.mobile, Bp.tablet, Bp.tabletWide, Bp.laptop, Bp.desktop, Bp.desktopWide]

/-- Index of a tier in the `breakpoints` list (`breakpoints.indexOf`). -/
def bpIdx : Bp → Nat
  | Bp.mobile => 0
  | Bp.tablet => 1
  | Bp.tabletWide => 2
  | Bp.laptop => 3
  | Bp.desktop => 4
  | Bp.desktopWide => 5

/-- The immediately preceding (smaller) tier, `breakpoints[i - 1]`
(`none` for the smallest tier, where JS reads `breakpoints[-1] = undefined`). -/
def bpPrev : Bp → Option Bp
  | Bp.mobile => none
  | Bp.tablet => some Bp.mobile
  | Bp.tabletWide => some Bp.tablet
  | Bp.laptop => some Bp.tabletWide
  | Bp.desktop => some Bp.laptop
  | Bp.desktopWide => some Bp.desktop

/-- A breakpoint object: each tier optionally carries a value. -/
abbrev BpMap := Bp → Option Val

/-- `Object.keys(options).length` for a breakpoint object. -/
def countKeys (m : BpMap) : Nat :=
  (bps.filter (fun b => (m b).isSome)).length

/-- The per-tier body of the `breakpoints.reduce` in
`removeRedundantBreakpoints`, as a function of the previous tier's value
`prev` and the current tier's value `cur`: drop `undefined` / `"inherit"` /
`""`, drop value `1` at the smallest tier when `isSpanValue`, and drop a
value equal to the previous tier's value in the input object. -/
def pruneStep (isSpanValue : Bool) (bp : Bp) (prev cur : Option Val) : Option Val :=
  match cur with
  | none => none
  | some v =>
    if v = Val.str "inherit" ∨ v = Val.str "" then none
    else if isSpanValue = true ∧ bpIdx bp = 0 ∧ v = Val.num 1 then none
    else if prev = some v then none
    else some v

/-- The tier-wise pruning pass of `removeRedundantBreakpoints` (the reduce
accumulator is write-only in the source, so the reduce is a pointwise map
over tiers; the previous value is read from the input object). -/
def removeRedundantAt (m : BpMap) (isSpanValue : Bool) (bp : Bp) : Option Val :=
  pruneStep isSpanValue bp ((bpPrev bp).bind m) (m bp)

/-- `removeRedundantBreakpoints` from the source: returns the object
unchanged when it has exactly one key, otherwise applies the pointwise
pruning step to every tier. -/
def removeRedundantBreakpoints (m : BpMap) (isSpanValue : Bool) : BpMap :=
  if countKeys m = 1 then m else removeRedundantAt m isSpanValue

/-- `options[bp] !== undefined && options[bp] !== ""`, the "has a value"
test used by `fillMissingBreakpoints`. -/
def isSetVal : Option Val → Bool
  | none => false
  | some v => v ≠ Val.str ""

/-- The backward scan `for (let i = idx - 1; i >= 0; i--)` in
`fillMissingBreakpoints`: `lookBack m k` inspects tiers
`breakpoints[k-1], ..., breakpoints[0]` in that order and returns the
first value that is set. -/
def lookBack (m : BpMap) : Nat → Option Val
  | 0 => none
  | k + 1 =>
    let b := bps.getD k Bp.mobile
    if isSetVal (m b) then m b else lookBack m k

/-- `fillMissingBreakpoints` from `src/helpers.ts`: each tier keeps its own
value when set, otherwise takes the nearest smaller set tier's value,
otherwise the fallback. -/
def fillMissingBreakpoints (m : BpMap) (fallback : Val) : Bp → Option Val :=
  fun bp =>
    if isSetVal (m bp) then m bp
    else
      match lookBack m (bpIdx bp) with
      | some v => some v
      | none => some fallback

/-- Specification-side description of breakpoint filling: the value of the
largest set tier at or below `bp` (scanning downward from `bp`), with the
fallback when no tier at or below `bp` is set.  Built only from the tiers
`≤ bp`, so by construction no larger tier can contribute. -/
def nearestAtOrBelow (m : BpMap) (fallback : Val) (bp : Bp) : Val :=
  (((bps.take (bpIdx bp + 1)).reverse.filterMap
    (fun b => if isSetVal (m b) then m b else none)).headD fallback)

/-- A span value as the source distinguishes it: a number (`imp`), a
numeric string without a slash (`numStr`, read with `parseInt`), or an
explicit `"start/end"` string (`exp`, kept as its two parsed integers). -/
inductive SpanValue where
  | imp (n : Int)
  | numStr (n : Int)
  | exp (s e : Int)
deriving DecidableEq, Repr

/-- `isExplicitSpan`: a string containing `"/"`. -/
def isExplicitSpan : SpanValue → Bool
  | SpanValue.exp _ _ => true
  | _ => false

/-- `getSpanLength` from the unnamed helper module: a number is its own
length; a slash-free string is read with `parseInt`; an explicit span has
length `end - start`, except that `end = -1` yields `null`.  Total by
construction (the source never throws). -/
def getSpanLength : SpanValue → Option Int
  | SpanValue.imp n => some n
  | SpanValue.numStr n => some n
  | SpanValue.exp s e => if e = -1 then none else some (e - s)

/-- A parsed span: the column and row components. -/
structure ParsedSpan where
  col : SpanValue
  row : SpanValue
deriving DecidableEq, Repr

/-- `adjustExplicitSpansForNextRow` from the unnamed helper module: when
the row component is an explicit span, shift its start by
`previousRowEnd - 1` keeping its length; otherwise return the span
unchanged.  The column component is never touched. -/
def adjustExplicitSpansForNextRow (explicitSpan : ParsedSpan)
    (previousRowEnd : Int) : ParsedSpan :=
  match explicitSpan.row with
  | SpanValue.exp s e =>
    { col := explicitSpan.col
      row := SpanValue.exp (s + previousRowEnd - 1) (s + previousRowEnd - 1 + (e - s)) }
  | _ => { col := explicitSpan.col, row := explicitSpan.row }

/-- A user-supplied span token before parsing: a bare number, a plain
column span, or a `"col:row"` pair. -/
inductive UserSpanValue where
  | num (n : Int)
  | plain (s : SpanValue)
  | colRow (c r : SpanValue)
deriving DecidableEq, Repr

/-- `parseSpan` from the unnamed helper module. -/
def parseSpan : UserSpanValue → ParsedSpan
  | UserSpanValue.num n => { col := SpanValue.imp n, row := SpanValue.imp 1 }
  | UserSpanValue.colRow c r => { col := c, row := r }
  | UserSpanValue.plain s => { col := s, row := SpanValue.imp 1 }

/-- The flat-array branch of `parseMultiRowPattern`: a non-empty flat
pattern is parsed item-by-item and wrapped as a one-row multi-row pattern;
an empty input falls back to `[[{col: 1, row: 1}]]`. -/
def parseFlatPattern (pattern : List UserSpanValue) : List (List ParsedSpan) :=
  match pattern with
  | [] => [[{ col := SpanValue.imp 1, row := SpanValue.imp 1 }]]
  | _ => [pattern.map parseSpan]

/-- The explicit-span statistics gathered by the first loop of
`calculatePatternColumns`: running `maxColumnEnd` (initially `0`), running
`minColumnStart` (`none` plays the role of `Infinity`), and
`hasExplicitSpans`. -/
def explicitStats (rowPattern : List ParsedSpan) : Int × Option Int × Bool :=
  rowPattern.foldl
    (fun acc ps =>
      match ps.col with
      | SpanValue.exp s e =>
        (max acc.1 e,
         some (match acc.2.1 with | none => s | some m => min m s),
         true)
      | _ => acc)
    (0, none, false)

/-- `calculatePatternColumns` from the unnamed helper module. -/
def calculatePatternColumns (rowPattern : List ParsedSpan) : Int :=
  let stats := explicitStats rowPattern
  if stats.2.2 = true then
    if rowPattern.all (fun ps => isExplicitSpan ps.col) then
      stats.1 - (match stats.2.1 with | none => 1 | some m => m) + 1
    else stats.1
  else
    rowPattern.foldl (fun sum ps => sum + ((getSpanLength ps.col).getD 1)) 0

/-- `inferColumnCount`: `Math.max` over the per-row column counts (the
multi-row pattern the source builds is never empty; the empty case is
given a harmless default). -/
def inferColumnCount (multiRowPattern : List (List ParsedSpan)) : Int :=
  match multiRowPattern.map calculatePatternColumns with
  | [] => 0
  | x :: xs => xs.foldl max x

/-- The mirror policy: `false`, `"even"` or `"odd"`. -/
inductive Mirror where
  | off
  | even
  | odd
deriving DecidableEq, Repr

/-- The row-finding loop of `getItemSpans`: walk the rows accumulating
lengths; the first row index whose cumulative length exceeds the position
wins; `rowPatternIndex` stays at its initial `0` if the loop never
breaks. -/
def findRowIdx : List (List ParsedSpan) → Nat → Nat → Nat → Nat
  | [], _, _, _ => 0
  | r :: rest, pos, cur, i =>
    if pos < cur + r.length then i else findRowIdx rest pos (cur + r.length) (i + 1)

/-- `getItemSpans` from the unnamed helper module: resolve the governing
pattern entry for an item index, with cycling, optional mirroring on
alternating cycles, and recursive row-offset continuation for explicit row
spans in cycles beyond the first. -/
def getItemSpans (index : Nat) (columns : Int)
    (multiRowPattern : List (List ParsedSpan)) (mirror : Mirror) : ParsedSpan :=
  if multiRowPattern.length = 0 then { col := SpanValue.imp 1, row := SpanValue.imp 1 }
  else
    let itemsPerPattern := (multiRowPattern.map List.length).sum
    let patternCycle := index / itemsPerPattern
    let positionInCycle := index % itemsPerPattern
    let rowPatternIndex := findRowIdx multiRowPattern positionInCycle 0 0
    let rowPattern0 := multiRowPattern.getD rowPatternIndex []
    let shouldMirror :=
      match mirror with
      | Mirror.off => false
      | Mirror.even => patternCycle % 2 = 1
      | Mirror.odd => patternCycle % 2 = 0
    let rowPattern := if shouldMirror then rowPattern0.reverse else rowPattern0
    let previousRowsItems := ((multiRowPattern.take rowPatternIndex).map List.length).sum
    let positionInRowPattern := positionInCycle - previousRowsItems
    let spans := rowPattern.getD positionInRowPattern
      { col := SpanValue.imp 1, row := SpanValue.imp 1 }
    if h : 0 < patternCycle ∧ isExplicitSpan spans.row = true then
      -- The source tests `itemIndexInPreviousCycle >= 0`, i.e.
      -- `itemsPerPattern ≤ index`; under the surrounding guard
      -- `0 < patternCycle` the pattern necessarily has at least one item,
      -- so the added positivity conjunct (needed for termination) holds.
      let previousRowEnd : Int :=
        if h2 : 0 < itemsPerPattern ∧ itemsPerPattern ≤ index then
          let previousSpans :=
            getItemSpans (index - itemsPerPattern) columns multiRowPattern mirror
          match previousSpans.row with
          | SpanValue.exp _ e => e
          | SpanValue.imp n => 1 + n
          | SpanValue.numStr n => 1 + n
        else (patternCycle : Int) + 1
      adjustExplicitSpansForNextRow spans previousRowEnd
    else spans
termination_by index
decreasing_by
  omega

/-- `shouldHideItem` from the unnamed helper module, at one breakpoint:
hidden iff the limit is defined, is not `-1`, and `index >= limit`. -/
def shouldHideItem (index : Int) (limitByBreakpoint : Bp → Option Int) (bp : Bp) : Bool :=
  match limitByBreakpoint bp with
  | none => false
  | some limit => limit ≠ -1 ∧ limit ≤ index

/-- `orderItemsForMasonryColumns` from the unnamed helper module: allocate
an array of the input's length (unfilled slots are `none`) and write
`items[i]` at `row + col * rowCount`, where `row = ⌊i / columnCount⌋`,
`col = i % columnCount` and `rowCount = ⌈items.length / columnCount⌉`
(the ceiling is the JS `Math.ceil(items.length / columnCount)` for
`columnCount > 0`, the only meaningful domain). -/
def orderItemsForMasonryColumns {α : Type} (items : List α)
    (columnCount : Nat) : List (Option α) :=
  let rowCount := (items.length + columnCount - 1) / columnCount
  items.enum.foldl
    (fun reordered p =>
      reordered.set (p.1 / columnCount + p.1 % columnCount * rowCount) (some p.2))
    (List.replicate items.length (none : Option α))

/-- The single-row pattern `[2,1,3]`, parsed (col spans `2,1,3`, row spans
all `1`). -/
def patternC1 : List (List ParsedSpan) :=
  parseFlatPattern [UserSpanValue.num 2, UserSpanValue.num 1, UserSpanValue.num 3]

/-- The parsed single-row pattern whose col spans are the explicit spans
`"1/3"`, `"3/6"`, `"6/10"`. -/
def patternExplicit : List (List ParsedSpan) :=
  [[{ col := SpanValue.exp 1 3, row := SpanValue.imp 1 },
    { col := SpanValue.exp 3 6, row := SpanValue.imp 1 },
    { col := SpanValue.exp 6 10, row := SpanValue.imp 1 }]]

/-- The breakpoint object with a single `mobile: "inherit"` entry, used to
exercise the one-key early return of `removeRedundantBreakpoints`. -/
def singleInheritMap : BpMap :=
  fun b => if b = Bp.mobile then some (Val.str "inherit") else none

/-- A value surviving the pruning step was the current tier's value. -/
theorem pruneStep_some_imp (f : Bool) (bp : Bp) (p c : Option Val) (v : Val)
    (h : pruneStep f bp p c = some v) : c = some v := by
  cases c with
  | none => simp [pruneStep] at h
  | some w =>
    simp only [pruneStep] at h
    split_ifs at h with h1 h2 h3
    exact h

/-- The tier-wise pruning pass is idempotent. -/
theorem removeRedundantAt_idem (m : BpMap) (f : Bool) :
    removeRedundantAt (removeRedundantAt m f) f = removeRedundantAt m f := by
  funext bp
  cases h : removeRedundantAt m f bp with
  | none =>
    unfold removeRedundantAt at h ⊢
    rw [h]
    simp [pruneStep]
  | some v =>
    have hfacts : ¬(v = Val.str "inherit" ∨ v = Val.str "") ∧
        ¬(f = true ∧ bpIdx bp = 0 ∧ v = Val.num 1) ∧
        (bpPrev bp).bind m ≠ some v := by
      unfold removeRedundantAt at h
      cases hm : m bp with
      | none => rw [hm] at h; simp [pruneStep] at h
      | some w =>
        rw [hm] at h
        simp only [pruneStep] at h
        split_ifs at h with h1 h2 h3
        cases h
        exact ⟨h1, h2, h3⟩
    unfold removeRedundantAt at h ⊢
    rw [h]
    simp only [pruneStep]
    rw [if_neg hfacts.1, if_neg hfacts.2.1, if_neg ?_]
    cases hp : bpPrev bp with
    | none => simp
    | some bp2 =>
      intro ho
      simp only [Option.some_bind] at ho
      have hm2 : m bp2 = some v := pruneStep_some_imp f bp2 _ _ v ho
      have hcontra : (bpPrev bp).bind m = some v := by
        rw [hp]
        simpa using hm2
      exact hfacts.2.2 hcontra

/-- Claim C4: pruning is idempotent — for every breakpoint map and either
value of the `isSpanValue` flag, applying `removeRedundantBreakpoints`
twice equals applying it once. -/
theorem removeRedundantBreakpoints_idempotent (m : BpMap) (isSpanValue : Bool) :
    removeRedundantBreakpoints (removeRedundantBreakpoints m isSpanValue) isSpanValue =
      removeRedundantBreakpoints m isSpanValue := by
  by_cases hc : countKeys m = 1
  · have e1 : removeRedundantBreakpoints m isSpanValue = m := by
      unfold removeRedundantBreakpoints
      rw [if_pos hc]
    rw [e1]
    exact e1
  · have e1 : removeRedundantBreakpoints m isSpanValue = removeRedundantAt m isSpanValue := by
      unfold removeRedundantBreakpoints
      rw [if_neg hc]
    rw [e1]
    by_cases hc2 : countKeys (removeRedundantAt m isSpanValue) = 1
    · unfold removeRedundantBreakpoints
      rw [if_pos hc2]
    · unfold removeRedundantBreakpoints
      rw [if_neg hc2]
      exact removeRedundantAt_idem m isSpanValue

/-- Claim C9: a breakpoint map with exactly one entry is returned unchanged
by `removeRedundantBreakpoints`, whatever that entry's value is. -/
theorem removeRedundantBreakpoints_singleton_unchanged (m : BpMap)
    (isSpanValue : Bool) (h : countKeys m = 1) :
    removeRedundantBreakpoints m isSpanValue = m := by
  unfold removeRedundantBreakpoints
  rw [if_pos h]

/-- Witness for C9: the one-entry map `\x7bmobile: "inherit"\x7d` (whose value
would be dropped from any larger map) passes through unchanged. -/
theorem removeRedundantBreakpoints_singleton_unchanged_witness :
    countKeys singleInheritMap = 1 ∧
    removeRedundantBreakpoints singleInheritMap true = singleInheritMap :=
  ⟨by decide, removeRedundantBreakpoints_singleton_unchanged singleInheritMap true (by decide)⟩

/-- The head of a `filterMap` is the first non-`none` image. -/
theorem head_filterMap_eq_findSome {α β : Type} (f : α → Option β) (l : List α) :
    (l.filterMap f).head? = l.findSome? f := by
  induction l with
  | nil => simp
  | cons a rest ih =>
    cases hfa : f a <;>
      simp [List.filterMap_cons, List.findSome?_cons, hfa, ih]

/-- Unfolding step for the first-set-value scan over breakpoint tiers. -/
theorem findSome_step (m : BpMap) (b : Bp) (rest : List Bp) :
    List.findSome? (fun x => if isSetVal (m x) then m x else none) (b :: rest) =
      if isSetVal (m b) then m b
      else List.findSome? (fun x => if isSetVal (m x) then m x else none) rest := by
  by_cases h : isSetVal (m b) = true
  · cases hmb : m b with
    | none => rw [hmb] at h; simp [isSetVal] at h
    | some v =>
      rw [hmb] at h
      simp [List.findSome?_cons, h, hmb]
  · simp only [Bool.not_eq_true] at h
    simp [List.findSome?_cons, h]

/-- The backward `for` loop of `fillMissingBreakpoints` computes the first
set value over the reversed prefix of the tier list. -/
theorem lookBack_eq_findSome (m : BpMap) (k : Nat) (hk : k ≤ 6) :
    lookBack m k =
      (bps.take k).reverse.findSome?
        (fun x => if isSetVal (m x) then m x else none) := by
  interval_cases k <;>
    simp [lookBack, bps, findSome_step]

/-- Claim C5: for every breakpoint map and fallback, `fillMissingBreakpoints`
gives each tier its own value when set, otherwise the value of the nearest
smaller set tier, otherwise the fallback — `nearestAtOrBelow` is built only
from the tiers at or below `bp`, so no larger tier ever contributes. -/
theorem fillMissingBreakpoints_eq_nearestAtOrBelow (m : BpMap) (fallback : Val) (bp : Bp) :
    fillMissingBreakpoints m fallback bp = some (nearestAtOrBelow m fallback bp) := by
  have hrw : nearestAtOrBelow m fallback bp =
      ((if isSetVal (m bp) then m bp
        else lookBack m (bpIdx bp)).getD fallback) := by
    unfold nearestAtOrBelow
    rw [List.headD_eq_head?_getD, head_filterMap_eq_findSome,
      lookBack_eq_findSome m (bpIdx bp) (by cases bp <;> simp [bpIdx])]
    cases bp
    case mobile =>
      have e1 : (List.take (bpIdx Bp.mobile + 1) bps).reverse = [Bp.mobile] := rfl
      have e0 : (List.take (bpIdx Bp.mobile) bps).reverse = ([] : List Bp) := rfl
      rw [e1, e0, findSome_step]
    case tablet =>
      have e1 : (List.take (bpIdx Bp.tablet + 1) bps).reverse = [Bp.tablet, Bp.mobile] := rfl
      have e0 : (List.take (bpIdx Bp.tablet) bps).reverse = [Bp.mobile] := rfl
      rw [e1, e0, findSome_step]
    case tabletWide =>
      have e1 : (List.take (bpIdx Bp.tabletWide + 1) bps).reverse =
        [Bp.tabletWide, Bp.tablet, Bp.mobile] := rfl
      have e0 : (List.take (bpIdx Bp.tabletWide) bps).reverse = [Bp.tablet, Bp.mobile] := rfl
      rw [e1, e0, findSome_step]
    case laptop =>
      have e1 : (List.take (bpIdx Bp.laptop + 1) bps).reverse =
        [Bp.laptop, Bp.tabletWide, Bp.tablet, Bp.mobile] := rfl
      have e0 : (List.take (bpIdx Bp.laptop) bps).reverse =
        [Bp.tabletWide, Bp.tablet, Bp.mobile] := rfl
      rw [e1, e0, findSome_step]
    case desktop =>
      have e1 : (List.take (bpIdx Bp.desktop + 1) bps).reverse =
        [Bp.desktop, Bp.laptop, Bp.tabletWide, Bp.tablet, Bp.mobile] := rfl
      have e0 : (List.take (bpIdx Bp.desktop) bps).reverse =
        [Bp.laptop, Bp.tabletWide, Bp.tablet, Bp.mobile] := rfl
      rw [e1, e0, findSome_step]
    case desktopWide =>
      have e1 : (List.take (bpIdx Bp.desktopWide + 1) bps).reverse =
        [Bp.desktopWide, Bp.desktop, Bp.laptop, Bp.tabletWide, Bp.tablet, Bp.mobile] := rfl
      have e0 : (List.take (bpIdx Bp.desktopWide) bps).reverse =
        [Bp.desktop, Bp.laptop, Bp.tabletWide, Bp.tablet, Bp.mobile] := rfl
      rw [e1, e0, findSome_step]
  rw [hrw]
  unfold fillMissingBreakpoints
  by_cases h : isSetVal (m bp) = true
  · cases hmb : m bp with
    | none => rw [hmb] at h; simp [isSetVal] at h
    | some v =>
      rw [hmb] at h
      simp [h]
  · simp only [Bool.not_eq_true] at h
    cases hlb : lookBack m (bpIdx bp) with
    | none => simp [h, hlb]
    | some v => simp [h, hlb]

/-- Claim C1: for the single-row pattern `[2,1,3]` with mirror policy
`"even"`, `getItemSpans` yields col spans `2,1,3` for cycle 0
(indices 0-2), the mirrored order `3,1,2` for cycle 1 (indices 3-5), and
the original order `2,1,3` again for cycle 2 (indices 6-8). -/
theorem getItemSpans_pattern213_mirror_even :
    ((getItemSpans 0 (inferColumnCount patternC1) patternC1 Mirror.even).col = SpanValue.imp 2 ∧
     (getItemSpans 1 (inferColumnCount patternC1) patternC1 Mirror.even).col = SpanValue.imp 1 ∧
     (getItemSpans 2 (inferColumnCount patternC1) patternC1 Mirror.even).col = SpanValue.imp 3) ∧
    ((getItemSpans 3 (inferColumnCount patternC1) patternC1 Mirror.even).col = SpanValue.imp 3 ∧
     (getItemSpans 4 (inferColumnCount patternC1) patternC1 Mirror.even).col = SpanValue.imp 1 ∧
     (getItemSpans 5 (inferColumnCount patternC1) patternC1 Mirror.even).col = SpanValue.imp 2) ∧
    ((getItemSpans 6 (inferColumnCount patternC1) patternC1 Mirror.even).col = SpanValue.imp 2 ∧
     (getItemSpans 7 (inferColumnCount patternC1) patternC1 Mirror.even).col = SpanValue.imp 1 ∧
     (getItemSpans 8 (inferColumnCount patternC1) patternC1 Mirror.even).col = SpanValue.imp 3) := by
  refine ⟨⟨?_, ?_, ?_⟩, ⟨?_, ?_, ?_⟩, ⟨?_, ?_, ?_⟩⟩ <;>
    simp [getItemSpans, patternC1, parseFlatPattern, parseSpan, findRowIdx,
      isExplicitSpan, adjustExplicitSpansForNextRow, inferColumnCount,
      calculatePatternColumns, explicitStats, getSpanLength]

/-- Counterexample for C2: for the explicit spans `"1/3"`, `"3/6"`,
`"6/10"`, column inference does not return 9. -/
theorem inferColumnCount_explicit_claim_false :
    inferColumnCount patternExplicit ≠ 9 := by decide

/-- Claim C2 (amended): for the explicit spans `"1/3"`, `"3/6"`, `"6/10"`,
column inference returns `max(end) - min(start) + 1 = 10 - 1 + 1 = 10`. -/
theorem inferColumnCount_explicit_eq_ten :
    inferColumnCount patternExplicit = 10 := by decide

/-- Counterexample for C3: `orderItemsForMasonryColumns` on six items with
three columns does not return `[a,c,e,b,d,f]`. -/
theorem orderItemsForMasonryColumns_claim_false :
    ¬ orderItemsForMasonryColumns ["a", "b", "c", "d", "e", "f"] 3 =
      [some "a", some "c", some "e", some "b", some "d", some "f"] := by decide

/-- Claim C3 (amended): for `[a,b,c,d,e,f]` and `columnCount = 3` (so
`rowCount = 2`), the formula `reordered[row + col * rowCount] = items[i]`
yields `[a,d,b,e,c,f]`. -/
theorem orderItemsForMasonryColumns_six_by_three :
    orderItemsForMasonryColumns ["a", "b", "c", "d", "e", "f"] 3 =
      [some "a", some "d", some "b", some "e", some "c", some "f"] := by decide

/-- Claim C6: at a breakpoint whose limit is `-1` an item is never marked
hidden, and at a breakpoint whose limit is a defined `N ≠ -1` the item is
marked hidden exactly when `index ≥ N`. -/
theorem shouldHideItem_limit_behavior (index : Int)
    (limitByBreakpoint : Bp → Option Int) (bp : Bp) :
    (limitByBreakpoint bp = some (-1) → shouldHideItem index limitByBreakpoint bp = false) ∧
    (∀ limit : Int, limitByBreakpoint bp = some limit → limit ≠ -1 →
      (shouldHideItem index limitByBreakpoint bp = true ↔ limit ≤ index)) := by
  constructor
  · intro h
    simp [shouldHideItem, h]
  · intro limit h hne
    simp [shouldHideItem, h, hne]

/-- Witness for C6: a limit of `-1` does not hide item 0, and a limit of 3
hides item 5. -/
theorem shouldHideItem_limit_behavior_witness :
    shouldHideItem 0 (fun _ => some (-1)) Bp.mobile = false ∧
    (shouldHideItem 5 (fun _ => some (3 : Int)) Bp.laptop = true ↔ (3 : Int) ≤ 5) := by
  constructor
  · exact (shouldHideItem_limit_behavior 0 (fun _ => some (-1)) Bp.mobile).1 rfl
  · exact (shouldHideItem_limit_behavior 5 (fun _ => some 3) Bp.laptop).2 3 rfl (by decide)

/-- Claim C7: `getSpanLength` is a total function that returns `null`
exactly for explicit spans whose end is `-1`, returns `end - start` for
every other explicit span, and returns `N` for a numeric span `N`. -/
theorem getSpanLength_total_behavior (sp : SpanValue) :
    (getSpanLength sp = none ↔ ∃ s : Int, sp = SpanValue.exp s (-1)) ∧
    (∀ s e : Int, sp = SpanValue.exp s e → e ≠ -1 → getSpanLength sp = some (e - s)) ∧
    (∀ n : Int, sp = SpanValue.imp n → getSpanLength sp = some n) := by
  refine ⟨?_, ?_, ?_⟩
  · cases sp with
    | imp n => simp [getSpanLength]
    | numStr n => simp [getSpanLength]
    | exp s e =>
      by_cases he : e = -1 <;> simp [getSpanLength, he]
  · rintro s e rfl he
    simp [getSpanLength, he]
  · rintro n rfl
    simp [getSpanLength]

/-- Witness for C7: `"3/6"` has length 3, the numeric span 4 has length 4,
and an explicit span ending at -1 has no length. -/
theorem getSpanLength_total_behavior_witness :
    getSpanLength (SpanValue.exp 3 6) = some 3 ∧
    getSpanLength (SpanValue.imp 4) = some 4 ∧
    getSpanLength (SpanValue.exp 2 (-1)) = none := by
  refine ⟨?_, ?_, ?_⟩
  · exact (getSpanLength_total_behavior (SpanValue.exp 3 6)).2.1 3 6 rfl (by decide)
  · exact (getSpanLength_total_behavior (SpanValue.imp 4)).2.2 4 rfl
  · exact (getSpanLength_total_behavior (SpanValue.exp 2 (-1))).1.mpr ⟨2, rfl⟩

/-- Claim C10: when the row component is an explicit span `s/e`,
`adjustExplicitSpansForNextRow` keeps the col component, shifts the row
start to `s + previousRowEnd - 1` and preserves the row length; a span
whose row is not explicit is returned entirely unchanged. -/
theorem adjustExplicitSpansForNextRow_behavior (ps : ParsedSpan) (prev s e : Int) :
    (ps.row = SpanValue.exp s e →
      (adjustExplicitSpansForNextRow ps prev).col = ps.col ∧
      (adjustExplicitSpansForNextRow ps prev).row =
        SpanValue.exp (s + prev - 1) (s + prev - 1 + (e - s)) ∧
      (s + prev - 1 + (e - s)) - (s + prev - 1) = e - s) ∧
    (isExplicitSpan ps.row = false → adjustExplicitSpansForNextRow ps prev = ps) := by
  constructor
  · intro h
    refine ⟨?_, ?_, by ring⟩ <;> simp [adjustExplicitSpansForNextRow, h]
  · intro h
    cases hr : ps.row with
    | imp n => cases ps; simp_all [adjustExplicitSpansForNextRow]
    | numStr n => cases ps; simp_all [adjustExplicitSpansForNextRow]
    | exp a b => simp [isExplicitSpan, hr] at h

/-- Witness for C10: the explicit row `2/4` with previous row end 3 moves
to `4/6` with the col span untouched, and an implicit row is unchanged. -/
theorem adjustExplicitSpansForNextRow_behavior_witness :
    (adjustExplicitSpansForNextRow
      { col := SpanValue.imp 5, row := SpanValue.exp 2 4 } 3).col = SpanValue.imp 5 ∧
    (adjustExplicitSpansForNextRow
      { col := SpanValue.imp 5, row := SpanValue.exp 2 4 } 3).row =
        SpanValue.exp (2 + 3 - 1) (2 + 3 - 1 + (4 - 2)) ∧
    adjustExplicitSpansForNextRow
      { col := SpanValue.imp 7, row := SpanValue.imp 2 } 3 =
        { col := SpanValue.imp 7, row := SpanValue.imp 2 } := by
  refine ⟨?_, ?_, ?_⟩
  · exact ((adjustExplicitSpansForNextRow_behavior
      { col := SpanValue.imp 5, row := SpanValue.exp 2 4 } 3 2 4).1 rfl).1
  · exact ((adjustExplicitSpansForNextRow_behavior
      { col := SpanValue.imp 5, row := SpanValue.exp 2 4 } 3 2 4).1 rfl).2.1
  · exact (adjustExplicitSpansForNextRow_behavior
      { col := SpanValue.imp 7, row := SpanValue.imp 2 } 3 0 0).2 (by decide)

/-- Folding position-keyed writes over a list preserves its length. -/
theorem scatter_length {gam bet : Type} (key : gam → Nat) (val : gam → bet)
    (ws : List gam) (init : List bet) :
    (ws.foldl (fun acc p => acc.set (key p) (val p)) init).length = init.length := by
  induction ws generalizing init with
  | nil => rfl
  | cons w rest ih => simp [List.foldl_cons, ih, List.length_set]

/-- A slot no write targets keeps its initial value. -/
theorem scatter_getElem?_of_not_mem {gam bet : Type} (key : gam → Nat) (val : gam → bet)
    (ws : List gam) (init : List bet) (j : Nat) (h : ∀ p ∈ ws, key p ≠ j) :
    (ws.foldl (fun acc p => acc.set (key p) (val p)) init)[j]? = init[j]? := by
  induction ws generalizing init with
  | nil => rfl
  | cons w rest ih =>
    rw [List.foldl_cons, ih _ (fun p hp => h p (List.mem_cons_of_mem w hp))]
    exact List.getElem?_set_ne (h w (List.mem_cons_self w rest))

/-- When write positions are distinct, a targeted slot ends up holding the
value written to it. -/
theorem scatter_getElem?_of_mem {gam bet : Type} (key : gam → Nat) (val : gam → bet)
    (ws : List gam) (init : List bet) (j : Nat) (p0 : gam)
    (hmem : p0 ∈ ws) (hkey : key p0 = j) (hnd : (ws.map key).Nodup)
    (hj : j < init.length) :
    (ws.foldl (fun acc p => acc.set (key p) (val p)) init)[j]? = some (val p0) := by
  induction ws generalizing init with
  | nil => simp at hmem
  | cons w rest ih =>
    rw [List.map_cons, List.nodup_cons] at hnd
    rw [List.foldl_cons]
    rcases List.mem_cons.mp hmem with heq | hmem2
    · subst heq
      have hnotin : ∀ p ∈ rest, key p ≠ j := by
        intro p hp hpj
        have hmm := List.mem_map_of_mem key hp
        rw [hpj, ← hkey] at hmm
        exact hnd.1 hmm
      rw [scatter_getElem?_of_not_mem key val rest _ j hnotin, ← hkey]
      exact List.getElem?_set_eq_of_lt (val p0) (hkey ▸ hj)
    · exact ih _ hmem2 hnd.2 (by simpa [List.length_set] using hj)

/-- The masonry write position of an in-range index is in range. -/
theorem masonry_pos_lt (cc rc i : Nat) (hcc : 0 < cc) (hi : i < cc * rc) :
    i / cc + i % cc * rc < cc * rc := by
  have hrc : 0 < rc := by
    rcases Nat.eq_zero_or_pos rc with h0 | h
    · subst h0; simp at hi
    · exact h
  have h1 : i / cc < rc := (Nat.div_lt_iff_lt_mul hcc).mpr (by rw [Nat.mul_comm]; exact hi)
  have h2 : i % cc < cc := Nat.mod_lt _ hcc
  have hmul : (i % cc + 1) * rc ≤ cc * rc := Nat.mul_le_mul_right rc (by omega)
  have hexp : (i % cc + 1) * rc = i % cc * rc + rc := by
    rw [Nat.add_mul, Nat.one_mul]
  omega

/-- The decoded source index of an in-range slot is in range. -/
theorem masonry_decode_lt (cc rc j : Nat) (hcc : 0 < cc) (hrc : 0 < rc)
    (hj : j < cc * rc) :
    j % rc * cc + j / rc < cc * rc := by
  have h1 : j / rc < cc := (Nat.div_lt_iff_lt_mul hrc).mpr hj
  have h2 : j % rc < rc := Nat.mod_lt _ hrc
  have hmul : (j % rc + 1) * cc ≤ rc * cc := Nat.mul_le_mul_right cc (by omega)
  have hexp : (j % rc + 1) * cc = j % rc * cc + cc := by
    rw [Nat.add_mul, Nat.one_mul]
  have hcomm : rc * cc = cc * rc := Nat.mul_comm rc cc
  omega

/-- Encoding after decoding recovers the slot index. -/
theorem masonry_pos_decode (cc rc j : Nat) (hcc : 0 < cc) (hrc : 0 < rc)
    (hj : j < cc * rc) :
    (j % rc * cc + j / rc) / cc + (j % rc * cc + j / rc) % cc * rc = j := by
  have h1 : j / rc < cc := (Nat.div_lt_iff_lt_mul hrc).mpr hj
  have hdiv : (j % rc * cc + j / rc) / cc = j % rc := by
    rw [Nat.add_comm, Nat.add_mul_div_right _ _ hcc, Nat.div_eq_of_lt h1, Nat.zero_add]
  have hmod : (j % rc * cc + j / rc) % cc = j / rc := by
    rw [Nat.add_comm, Nat.add_mul_mod_self_right, Nat.mod_eq_of_lt h1]
  rw [hdiv, hmod, Nat.add_comm, Nat.mul_comm]
  exact Nat.div_add_mod j rc

/-- Decoding after encoding recovers the source index. -/
theorem masonry_decode_pos (cc rc i : Nat) (hcc : 0 < cc) (hrc : 0 < rc)
    (hi : i < cc * rc) :
    (i / cc + i % cc * rc) % rc * cc + (i / cc + i % cc * rc) / rc = i := by
  have h1 : i / cc < rc := (Nat.div_lt_iff_lt_mul hcc).mpr (by rw [Nat.mul_comm]; exact hi)
  have hmod : (i / cc + i % cc * rc) % rc = i / cc := by
    rw [Nat.add_mul_mod_self_right, Nat.mod_eq_of_lt h1]
  have hdiv : (i / cc + i % cc * rc) / rc = i % cc := by
    rw [Nat.add_mul_div_right _ _ hrc, Nat.div_eq_of_lt h1, Nat.zero_add]
  rw [hmod, hdiv, Nat.mul_comm]
  exact Nat.div_add_mod i cc

/-- Claim C8: for a positive column count dividing the item count,
`orderItemsForMasonryColumns` fills every slot and the result is a
permutation of the input: same length, and stripping the `Option` layer
yields a list containing each input element exactly once. -/
theorem orderItemsForMasonryColumns_perm_of_dvd {α : Type} (items : List α) (cc : Nat)
    (hcc : 0 < cc) (hdvd : cc ∣ items.length) :
    (orderItemsForMasonryColumns items cc).length = items.length ∧
    ((orderItemsForMasonryColumns items cc).filterMap id).Perm items := by
  set n := items.length with hn_def
  set rc := (n + cc - 1) / cc with hrc_def
  obtain ⟨k, hk⟩ := hdvd
  have hrck : rc = k := by
    rw [hrc_def, hk]
    rw [Nat.add_sub_assoc hcc]
    rw [Nat.mul_add_div hcc]
    rw [Nat.div_eq_of_lt (by omega)]
    omega
  have hn : n = cc * rc := by rw [hrck]; exact hk
  have horder : orderItemsForMasonryColumns items cc =
      items.enum.foldl
        (fun acc p => acc.set (p.1 / cc + p.1 % cc * rc) (some p.2))
        (List.replicate n (none : Option α)) := rfl
  have hlen : (orderItemsForMasonryColumns items cc).length = n := by
    rw [horder]
    rw [scatter_length (fun p : Nat × α => p.1 / cc + p.1 % cc * rc)
      (fun p => some p.2) items.enum (List.replicate n none)]
    exact List.length_replicate n none
  refine ⟨hlen, ?_⟩
  rcases Nat.eq_zero_or_pos n with hn0 | hnpos
  · have hitems : items = [] := List.length_eq_zero.mp hn0
    subst hitems
    simp [orderItemsForMasonryColumns]
  have hrc : 0 < rc := by
    rcases Nat.eq_zero_or_pos rc with h0 | h
    · rw [h0, Nat.mul_zero] at hn; omega
    · exact h
  have hmemlt : ∀ p ∈ items.enum, p.1 < n ∧ items[p.1]? = some p.2 := by
    rintro ⟨i, a⟩ hp
    have hget : items[i]? = some a := (List.mk_mem_enum_iff_getElem? ).mp hp
    have hlt : i < n := by
      have := List.getElem?_eq_some.mp hget
      exact this.1
    exact ⟨hlt, hget⟩
  have hnd : (items.enum.map (fun p : Nat × α => p.1 / cc + p.1 % cc * rc)).Nodup := by
    apply List.Nodup.map_on
    · rintro ⟨i, a⟩ hx ⟨i2, b⟩ hy hxy
      have hi := (hmemlt _ hx).1
      have hi2 := (hmemlt _ hy).1
      simp only at hxy
      have d1 := masonry_decode_pos cc rc i hcc hrc (hn ▸ hi)
      have d2 := masonry_decode_pos cc rc i2 hcc hrc (hn ▸ hi2)
      rw [hxy] at d1
      have hii : i = i2 := by omega
      subst hii
      have ha := (hmemlt _ hx).2
      have hb := (hmemlt _ hy).2
      rw [ha] at hb
      cases hb
      rfl
    · exact List.Nodup.of_map Prod.fst (List.nodup_enum_map_fst items)
  have hchar : ∀ j, j < n → ∀ hj2 : j % rc * cc + j / rc < n,
      (orderItemsForMasonryColumns items cc)[j]? =
        some (some (items.get ⟨j % rc * cc + j / rc, hj2⟩)) := by
    intro j hj hj2
    rw [horder]
    apply scatter_getElem?_of_mem
      (fun p : Nat × α => p.1 / cc + p.1 % cc * rc) (fun p => some p.2)
      items.enum (List.replicate n none) j
      (⟨j % rc * cc + j / rc, items.get ⟨j % rc * cc + j / rc, hj2⟩⟩ : Nat × α)
    · exact (List.mk_mem_enum_iff_getElem? ).mpr
        (List.getElem?_eq_getElem hj2)
    · exact masonry_pos_decode cc rc j hcc hrc (hn ▸ hj)
    · exact hnd
    · rw [List.length_replicate]; exact hj
  -- the index bijection
  have hlt_fwd : ∀ i : Fin n, (i : Nat) / cc + (i : Nat) % cc * rc < n := by
    intro i
    have := masonry_pos_lt cc rc i hcc (hn ▸ i.2)
    omega
  have hlt_bwd : ∀ j : Fin n, (j : Nat) % rc * cc + (j : Nat) / rc < n := by
    intro j
    have := masonry_decode_lt cc rc j hcc hrc (hn ▸ j.2)
    omega
  let e : Equiv.Perm (Fin n) :=
    { toFun := fun j => ⟨(j : Nat) % rc * cc + (j : Nat) / rc, hlt_bwd j⟩
      invFun := fun i => ⟨(i : Nat) / cc + (i : Nat) % cc * rc, hlt_fwd i⟩
      left_inv := by
        intro j
        apply Fin.ext
        exact masonry_pos_decode cc rc j hcc hrc (hn ▸ j.2)
      right_inv := by
        intro i
        apply Fin.ext
        exact masonry_decode_pos cc rc i hcc hrc (hn ▸ i.2) }
  have hofn : orderItemsForMasonryColumns items cc =
      List.ofFn (fun j : Fin n => some (items.get (e j))) := by
    apply List.ext_getElem?
    intro j
    by_cases hj : j < n
    · rw [hchar j hj (hlt_bwd ⟨j, hj⟩), List.getElem?_eq_getElem
        (by rw [List.length_ofFn]; exact hj), List.getElem_ofFn]
      rfl
    · rw [List.getElem?_eq_none (by rw [hlen]; omega),
        List.getElem?_eq_none (by rw [List.length_ofFn]; omega)]
  rw [hofn]
  have hfm : (List.ofFn (fun j : Fin n => some (items.get (e j)))).filterMap id =
      List.ofFn (fun j : Fin n => items.get (e j)) := by
    rw [show (fun j : Fin n => some (items.get (e j))) =
      (some ∘ fun j : Fin n => items.get (e j)) from rfl]
    rw [← List.map_ofFn]
    rw [List.filterMap_map]
    exact List.filterMap_some _
  rw [hfm]
  have hperm : (List.ofFn (fun j : Fin n => items.get (e j))).Perm
      (List.ofFn items.get) :=
    Equiv.Perm.ofFn_comp_perm e items.get
  exact hperm.trans (by rw [List.ofFn_get])


/-- Witness for C8: four items in two columns are a permutation of the
input. -/
theorem orderItemsForMasonryColumns_perm_of_dvd_witness :
    0 < 2 ∧ 2 ∣ ([10, 20, 30, 40] : List Nat).length ∧
    (orderItemsForMasonryColumns [10, 20, 30, 40] 2).length =
      ([10, 20, 30, 40] : List Nat).length ∧
    ((orderItemsForMasonryColumns [10, 20, 30, 40] 2).filterMap id).Perm
      [10, 20, 30, 40] := by
  have h := orderItemsForMasonryColumns_perm_of_dvd
    ([10, 20, 30, 40] : List Nat) 2 (by decide) (by decide)
  exact ⟨by decide, by decide, h.1, h.2⟩
